import Mathlib

/-!
Verification of the tmi repository's ordered-index engine (src/avl.cpp and
src/tmi_comparator.h).

Two embeddings are used:
* an inductive binary tree `ITree` for the purely downward-reading descent
  routines (`find`, `preinsert_node`), over which universal correctness
  statements are proved;
* explicit heap models (lists of node records addressed by index, with
  fuel-bounded loops) for the pointer-manipulating routines of both files,
  faithful to the parent links, balance bookkeeping and null-pointer
  behaviour of the source.
-/

namespace Tmi

/-- Binary tree with integer keys (KeyType = int in avl.cpp; the integer-key
instantiation of a tmi index). A node stores its left subtree, key, and
right subtree. -/
inductive ITree where
  | nil : ITree
  | node (left : ITree) (key : Int) (right : ITree) : ITree
deriving Repr, DecidableEq

/-- In-order list of keys of a tree. -/
def keys : ITree → List Int
  | .nil => []
  | .node l k r => keys l ++ k :: keys r

/-- All keys of the tree satisfy the boolean predicate `p`. -/
def allKeys (p : Int → Bool) : ITree → Bool
  | .nil => true
  | .node l k r => p k && allKeys p l && allKeys p r

/-- BST ordering invariant: every key of the left subtree is at most the root
key and every key of the right subtree is at least the root key, recursively
(the non-strict form matching avl.cpp's `verify_inner` order checks; the
sorted-unique strict ordering is a special case). -/
def isBST : ITree → Bool
  | .nil => true
  | .node l k r =>
      allKeys (fun x => decide (x ≤ k)) l &&
      allKeys (fun x => decide (k ≤ x)) r &&
      isBST l && isBST r

/-- Embedding of `find` (src/avl.cpp lines 42-55, same descent as the
comparator-based `find` of src/tmi_comparator.h lines 575-591): descend left
when the query key is less than the current key, right when the current key
is less than the query key, and stop at the current node otherwise.  Returns
the subtree rooted at the found node, or `none` for the not-found result
(nullptr / end-sentinel). -/
def find (t : ITree) (K : Int) : Option ITree :=
  match t with
  | .nil => none
  | .node l k r =>
      if K < k then find l K
      else if k < K then find r K
      else some (.node l k r)

/-- Insertion hints recorded by `preinsert_node` on the success path
(src/tmi_comparator.h lines 43-46): the insertion parent (represented by its
key) and whether insertion goes to its left. -/
structure InsertHints where
  m_parent : Option Int
  m_inserted_left : Bool
deriving Repr, DecidableEq

/-- Embedding of the sorted-unique branch of `preinsert_node`
(src/tmi_comparator.h lines 388-421): the same descent as `find`, recording
the would-be insertion parent and side; on an equal key it returns the
conflicting node (and the hints are left unset). -/
def preinsert_node (t : ITree) (key : Int) (parent : Option Int)
    (inserted_left : Bool) : Option ITree × Option InsertHints :=
  match t with
  | .nil => (none, some ⟨parent, inserted_left⟩)
  | .node l k r =>
      if key < k then preinsert_node l key (some k) true
      else if k < key then preinsert_node r key (some k) false
      else (some (.node l k r), none)

theorem allKeys_mem {p : Int → Bool} :
    ∀ {t : ITree}, allKeys p t = true → ∀ x ∈ keys t, p x = true := by
  intro t
  induction t with
  | nil => intro _ x hx; simp [keys] at hx
  | node l k r ihl ihr =>
    intro h x hx
    simp only [allKeys, Bool.and_eq_true] at h
    simp only [keys, List.mem_append, List.mem_cons] at hx
    rcases hx with hx | hx | hx
    · exact ihl h.1.2 x hx
    · exact hx ▸ h.1.1
    · exact ihr h.2 x hx

theorem find_eq_some_shape {t : ITree} {K : Int} {c : ITree}
    (h : find t K = some c) : ∃ l r, c = .node l K r := by
  induction t with
  | nil => simp [find] at h
  | node l k r ihl ihr =>
    simp only [find] at h
    by_cases h1 : K < k
    · simp [h1] at h; exact ihl h
    · by_cases h2 : k < K
      · simp [h1, h2] at h; exact ihr h
      · have hk : k = K := le_antisymm (not_lt.mp h1) (not_lt.mp h2)
        simp [h1, h2] at h
        exact ⟨l, r, by rw [← h, hk]⟩

theorem find_mem {t : ITree} {K : Int} (hb : isBST t = true)
    (hmem : K ∈ keys t) : ∃ l r, find t K = some (.node l K r) := by
  induction t with
  | nil => simp [keys] at hmem
  | node l k r ihl ihr =>
    simp only [isBST, Bool.and_eq_true] at hb
    obtain ⟨⟨⟨hle, hge⟩, hbl⟩, hbr⟩ := hb
    simp only [keys, List.mem_append, List.mem_cons] at hmem
    by_cases h1 : K < k
    · have hKl : K ∈ keys l := by
        rcases hmem with hx | hx | hx
        · exact hx
        · omega
        · have := allKeys_mem hge K hx
          simp at this; omega
      obtain ⟨l1, r1, hf⟩ := ihl hbl hKl
      exact ⟨l1, r1, by simp [find, h1, hf]⟩
    · by_cases h2 : k < K
      · have hKr : K ∈ keys r := by
          rcases hmem with hx | hx | hx
          · have := allKeys_mem hle K hx
            simp at this; omega
          · omega
          · exact hx
        obtain ⟨l1, r1, hf⟩ := ihr hbr hKr
        exact ⟨l1, r1, by simp [find, h1, h2, hf]⟩
      · have hk : k = K := by omega
        exact ⟨l, r, by simp [find, h1, h2, hk]⟩

theorem find_not_mem {t : ITree} {K : Int} (hmem : K ∉ keys t) :
    find t K = none := by
  induction t with
  | nil => simp [find]
  | node l k r ihl ihr =>
    simp only [keys, List.mem_append, List.mem_cons] at hmem
    push_neg at hmem
    obtain ⟨hl, hk, hr⟩ := hmem
    have h1 : K < k ∨ k < K := by omega
    rcases h1 with h1 | h1
    · simp [find, h1, ihl hl]
    · have h2 : ¬ K < k := by omega
      simp [find, h1, h2, ihr hr]

/-- C7: for every tree satisfying the BST ordering invariant and every key
`K`, `find K` returns a node whose key is equivalent to `K` (neither key
compares less than the other) whenever such a node exists, and the
not-found result (`none`, modelling nullptr / the end-sentinel cursor)
when no such node exists. -/
theorem find_correct (t : ITree) (K : Int) (hb : isBST t = true) :
    ((∃ k ∈ keys t, ¬ (k < K) ∧ ¬ (K < k)) →
      ∃ l k0 r, find t K = some (.node l k0 r) ∧ ¬ (k0 < K) ∧ ¬ (K < k0)) ∧
    ((¬ ∃ k ∈ keys t, ¬ (k < K) ∧ ¬ (K < k)) → find t K = none) := by
  constructor
  · rintro ⟨k, hkmem, hk1, hk2⟩
    have hkK : k = K := by omega
    obtain ⟨l, r, hf⟩ := find_mem hb (hkK ▸ hkmem)
    exact ⟨l, K, r, hf, by omega, by omega⟩
  · intro hno
    apply find_not_mem
    intro hmem
    exact hno ⟨K, hmem, by omega, by omega⟩

/-- Witness for C7 at the concrete tree with keys 1, 2, 3 and query key 2. -/
theorem find_correct_witness :
    ((∃ k ∈ keys (.node (.node .nil 1 .nil) 2 (.node .nil 3 .nil)),
        ¬ (k < (2:Int)) ∧ ¬ ((2:Int) < k)) →
      ∃ l k0 r, find (.node (.node .nil 1 .nil) 2 (.node .nil 3 .nil)) 2 =
          some (.node l k0 r) ∧ ¬ (k0 < 2) ∧ ¬ ((2:Int) < k0)) ∧
    ((¬ ∃ k ∈ keys (.node (.node .nil 1 .nil) 2 (.node .nil 3 .nil)),
        ¬ (k < (2:Int)) ∧ ¬ ((2:Int) < k)) →
      find (.node (.node .nil 1 .nil) 2 (.node .nil 3 .nil)) 2 = none) :=
  find_correct (.node (.node .nil 1 .nil) 2 (.node .nil 3 .nil)) 2 (by decide)

theorem preinsert_fst_eq_find (t : ITree) (key : Int) :
    ∀ parent inserted_left,
      (preinsert_node t key parent inserted_left).1 = find t key := by
  induction t with
  | nil => intro p b; simp [preinsert_node, find]
  | node l k r ihl ihr =>
    intro p b
    simp only [preinsert_node, find]
    by_cases h1 : key < k
    · simp [h1, ihl]
    · by_cases h2 : k < key
      · simp [h1, h2, ihr]
      · simp [h1, h2]

/-- Modelled from the spec: the per-index physical insertion of the success
path of the coordinator (`insert_node` / `insert_node_direct` place the new
node as a leaf under the recorded parent; rebalancing is the subject of
separate claims and is not observed here). -/
def bst_insert (t : ITree) (key : Int) : ITree :=
  match t with
  | .nil => .node .nil key .nil
  | .node l k r =>
      if key < k then .node (bst_insert l key) k r
      else .node l k (bst_insert r key)

/-- Scan the indices in order and return the first conflict reported by a
sorted-unique index's `preinsert_node`; the boolean of each pair records
whether that index is sorted-unique. -/
def firstConflict (indices : List (Bool × ITree)) (key : Int) : Option ITree :=
  match indices with
  | [] => none
  | (uniq, t) :: rest =>
      if uniq then
        match (preinsert_node t key none false).1 with
        | some c => some c
        | none => firstConflict rest key
      else firstConflict rest key

/-- Modelled from the spec: the Multi-Index Coordinator's insert (`do_insert`
lives in the container header, which is not among the sources; per spec §4.2
it pre-validates the candidate against each index without mutating, aborts
with the conflicting element if any sorted-unique index reports a conflict,
and only otherwise links the node into every tree and grows the size).
Conflict detection is the embedded `preinsert_node` of tmi_comparator.h. -/
def do_insert (indices : List (Bool × ITree)) (size : Nat) (key : Int) :
    List (Bool × ITree) × Nat × Option ITree :=
  match firstConflict indices key with
  | some c => (indices, size, some c)
  | none => (indices.map (fun p => (p.1, bst_insert p.2 key)), size + 1, none)

theorem firstConflict_of_dup {indices : List (Bool × ITree)} {key : Int}
    (hb : ∀ p ∈ indices, isBST p.2 = true)
    (hdup : ∃ p ∈ indices, p.1 = true ∧ key ∈ keys p.2) :
    ∃ l r, firstConflict indices key = some (.node l key r) := by
  induction indices with
  | nil => simp at hdup
  | cons hd rest ih =>
    obtain ⟨u, t⟩ := hd
    have hbt : isBST t = true := hb (u, t) (by simp)
    by_cases hu : u = true
    · subst hu
      simp only [firstConflict, if_pos rfl]
      cases hc : (preinsert_node t key none false).1 with
      | some c =>
        rw [preinsert_fst_eq_find] at hc
        obtain ⟨l, r, hshape⟩ := find_eq_some_shape hc
        exact ⟨l, r, by simp [hc, hshape]⟩
      | none =>
        rw [preinsert_fst_eq_find] at hc
        have hkt : key ∉ keys t := by
          intro hmem
          obtain ⟨l, r, hf⟩ := find_mem hbt hmem
          rw [hc] at hf
          exact Option.noConfusion hf
        have hrest : ∃ p ∈ rest, p.1 = true ∧ key ∈ keys p.2 := by
          obtain ⟨p, hp, hp1, hp2⟩ := hdup
          rcases List.mem_cons.mp hp with hp | hp
          · exfalso
            rw [hp] at hp2
            exact hkt hp2
          · exact ⟨p, hp, hp1, hp2⟩
        exact ih (fun p hp => hb p (List.mem_cons_of_mem _ hp)) hrest
    · simp only [firstConflict, if_neg hu]
      have hrest : ∃ p ∈ rest, p.1 = true ∧ key ∈ keys p.2 := by
        obtain ⟨p, hp, hp1, hp2⟩ := hdup
        rcases List.mem_cons.mp hp with hp | hp
        · exfalso
          apply hu
          rw [hp] at hp1
          exact hp1
        · exact ⟨p, hp, hp1, hp2⟩
      exact ih (fun p hp => hb p (List.mem_cons_of_mem _ hp)) hrest

/-- C5: inserting a value whose key compares equal to an existing key of a
sorted-unique index fails: the coordinator returns failure together with the
conflicting element (a node carrying the equivalent key), every index's tree
is left unchanged, and the container size does not increase. -/
theorem duplicate_insert_fails (indices : List (Bool × ITree)) (size : Nat)
    (key : Int) (hb : ∀ p ∈ indices, isBST p.2 = true)
    (hdup : ∃ p ∈ indices, p.1 = true ∧ key ∈ keys p.2) :
    ∃ l r, do_insert indices size key = (indices, size, some (.node l key r)) := by
  obtain ⟨l, r, hc⟩ := firstConflict_of_dup hb hdup
  exact ⟨l, r, by simp [do_insert, hc]⟩

/-- Witness for C5: inserting key 5 into a container with one sorted-unique
index already holding key 5. -/
theorem duplicate_insert_fails_witness :
    ∃ l r, do_insert [(true, .node .nil 5 .nil)] 1 5 =
      ([(true, .node .nil 5 .nil)], 1, some (.node l 5 r)) :=
  duplicate_insert_fails [(true, .node .nil 5 .nil)] 1 5 (by decide) (by decide)

/-! ### Heap embedding of src/avl.cpp

Nodes live in a heap (a list of node records); a pointer is an `Option Nat`
index into the heap (with `none` for nullptr); allocation appends at the end.
Loops take explicit fuel and return `none` when the fuel runs out (modelling
non-termination) or an invalid pointer is dereferenced. -/

/-- The `AVLnode` record of src/avl.cpp lines 27-39: key, value, the three
links, the `heavy_` flag, and the DEBUG `height_` field (initialised to 0 by
the constructor). -/
structure AVLnode where
  K : Int
  V : String
  left : Option Nat
  right : Option Nat
  parent : Option Nat
  heavy : Bool
  height : Int
deriving Repr, DecidableEq

/-- A heap of avl.cpp nodes, addressed by list position. -/
abbrev AHeap := List AVLnode

/-- Read the node at address `i`, or `none` for an invalid pointer. -/
def aget (h : AHeap) (i : Nat) : Option AVLnode := List.get? h i

/-- Replace the node at address `i` by `f` of its old record. -/
def aupd (h : AHeap) (i : Nat) (f : AVLnode → AVLnode) : AHeap :=
  match aget h i with
  | some n => List.set h i (f n)
  | none => h

/-- Heap length (the next fresh address). -/
def asize (h : AHeap) : Nat := List.length h

/-- The loop of `insert_without_rebalancing` (src/avl.cpp lines 61-87):
descend from `cur` (left if `K < cur->K_`, right otherwise) to the first
empty child slot, allocate the new node there and return it.  The source
sets the fresh node's parent pointer to the fresh node itself
(`cur->left_->parent_ = cur->left_;` and the mirror on the right), and the
embedding reproduces that assignment literally. -/
def iwr_loop (fuel : Nat) (h : AHeap) (cur : Nat) (K : Int) (V : String) :
    Option (AHeap × Nat) :=
  match fuel with
  | 0 => none
  | fuel + 1 =>
    match aget h cur with
    | none => none
    | some c =>
      if K < c.K then
        match c.left with
        | some l => iwr_loop fuel h l K V
        | none =>
          let idx := asize h
          let h1 := h ++ [⟨K, V, none, none, none, false, 0⟩]
          let h2 := aupd h1 cur (fun n => { n with left := some idx })
          let h3 := aupd h2 idx (fun n => { n with parent := some idx })
          some (h3, idx)
      else
        match c.right with
        | some r => iwr_loop fuel h r K V
        | none =>
          let idx := asize h
          let h1 := h ++ [⟨K, V, none, none, none, false, 0⟩]
          let h2 := aupd h1 cur (fun n => { n with right := some idx })
          let h3 := aupd h2 idx (fun n => { n with parent := some idx })
          some (h3, idx)

/-- Embedding of `insert` (src/avl.cpp lines 89-99): an empty tree becomes a
fresh single node; otherwise `insert_without_rebalancing` runs and the
original root pointer is returned unchanged (no rebalancing happens). -/
def avl_insert (fuel : Nat) (h : AHeap) (root : Option Nat) (K : Int)
    (V : String) : Option (AHeap × Nat) :=
  match root with
  | none => some (h ++ [⟨K, V, none, none, none, false, 0⟩], asize h)
  | some r =>
    match iwr_loop fuel h r K V with
    | some (h1, _cur) => some (h1, r)
    | none => none

/-- Fold `avl_insert` over a list of keys starting from the empty heap, with
value "abc" as in avl.cpp's driver. -/
def avl_insert_all (fuel : Nat) (ks : List Int) : Option (AHeap × Option Nat) :=
  ks.foldlM
    (fun (st : AHeap × Option Nat) k =>
      (avl_insert fuel st.1 st.2 k "abc").map (fun p => (p.1, some p.2)))
    (([] : List AVLnode), none)

/-- True height of the subtree at pointer `x` (the claim-side measure: -1 for
the empty tree, so a single node has height 0). -/
def structuralHeight (fuel : Nat) (h : AHeap) (x : Option Nat) : Option Int :=
  match fuel with
  | 0 => none
  | fuel + 1 =>
    match x with
    | none => some (-1)
    | some i =>
      match aget h i with
      | none => none
      | some n => do
        let hl ← structuralHeight fuel h n.left
        let hr ← structuralHeight fuel h n.right
        pure (max hl hr + 1)

/-- The two children of node `i` have true heights differing by at most one
(the balance-factor condition of the claims, computed independently). -/
def balancedAt (fuel : Nat) (h : AHeap) (i : Nat) : Bool :=
  match aget h i with
  | none => false
  | some n =>
    match structuralHeight fuel h n.left, structuralHeight fuel h n.right with
    | some a, some b => decide ((a - b).natAbs ≤ 1)
    | _, _ => false

/-- Every allocated node satisfies `balancedAt`. -/
def allBalanced (fuel : Nat) (h : AHeap) : Bool :=
  (List.range (asize h)).all (balancedAt fuel h)

/-- Parent-link consistency over the whole heap: the root's parent link is
empty, and every node with a non-empty parent link is the left or the right
child of that parent. -/
def parentConsistent (h : AHeap) (root : Option Nat) : Bool :=
  (match root with
   | none => true
   | some r =>
     match aget h r with
     | none => false
     | some n => n.parent == none) &&
  (List.range (asize h)).all (fun i =>
    match aget h i with
    | none => true
    | some n =>
      match n.parent with
      | none => true
      | some p =>
        match aget h p with
        | none => false
        | some pn => pn.left == some i || pn.right == some i)

/-- C1: the claim fails on the code.  Inserting 1, 2, 3 in order into an
empty tree through avl.cpp's `insert` yields a tree whose root has children
of heights -1 and 1: the balance condition (height difference at most one at
every node) is violated, because `insert` performs no rebalancing. -/
theorem insert_violates_balance :
    ∃ st, avl_insert_all 8 [1, 2, 3] = some st ∧ allBalanced 8 st.1 = false :=
  ⟨((avl_insert_all 8 [1, 2, 3]).getD (([] : List AVLnode), none)),
    by decide, by decide⟩

/-- C6: inserting the keys 1 through 7 in ascending order through avl.cpp's
`insert` produces a right chain of true height 6, not the height 2 the claim
requires. -/
theorem sorted_inserts_height_six :
    ∃ st, avl_insert_all 16 [1, 2, 3, 4, 5, 6, 7] = some st ∧
      structuralHeight 16 st.1 st.2 = some 6 :=
  ⟨((avl_insert_all 16 [1, 2, 3, 4, 5, 6, 7]).getD (([] : List AVLnode), none)),
    by decide, by decide⟩

/-- C4: the claim fails on the code.  After inserting 1 then 2 through
avl.cpp's `insert`, the second node's parent link points at the second node
itself (`cur->right_->parent_ = cur->right_;`), of which it is not a child,
so parent-link consistency is violated. -/
theorem insert_violates_parent_links :
    ∃ st, avl_insert_all 8 [1, 2] = some st ∧
      parentConsistent st.1 st.2 = false :=
  ⟨((avl_insert_all 8 [1, 2]).getD (([] : List AVLnode), none)),
    by decide, by decide⟩

/-- C10: whenever `insert` (src/avl.cpp lines 89-99) is called on a non-null
root and its descent loop terminates, the returned pointer is the original
root: the root node's identity is never changed by insertion into a
non-empty tree. -/
theorem insert_returns_original_root (fuel : Nat) (h : AHeap) (r : Nat)
    (K : Int) (V : String) (hterm : (iwr_loop fuel h r K V).isSome = true) :
    (avl_insert fuel h (some r) K V).map Prod.snd = some r := by
  cases heq : iwr_loop fuel h r K V with
  | none => rw [heq] at hterm; simp [Option.isSome] at hterm
  | some p =>
    obtain ⟨h1, c⟩ := p
    simp [avl_insert, heq]

/-- Witness for C10: inserting key 2 below a single-node tree with key 1
returns the original root address 0. -/
theorem insert_returns_original_root_witness :
    (avl_insert 4 [⟨1, "a", none, none, none, false, 0⟩] (some 0) 2 "b").map
      Prod.snd = some 0 :=
  insert_returns_original_root 4 [⟨1, "a", none, none, none, false, 0⟩] 0 2 "b"
    (by decide)

/-- Whether the child slot `x` holds a node marked heavy: false for a null
child (the `cur->left_ != nullptr && cur->left_->heavy_` condition), `none`
for an invalid pointer dereference. -/
def childHeavy (h : AHeap) (x : Option Nat) : Option Bool :=
  match x with
  | none => some false
  | some i => (aget h i).map AVLnode.heavy

/-- The walking loop of `height` (src/avl.cpp lines 108-131): starting from
`cur` with accumulator `H`, while some child exists, step into a heavy child
adding 2, else into the left child if present otherwise the right child,
adding 1. -/
def avl_height_loop (fuel : Nat) (h : AHeap) (cur : Nat) (H : Int) :
    Option Int :=
  match fuel with
  | 0 => none
  | fuel + 1 =>
    match aget h cur with
    | none => none
    | some c =>
      if c.left = none ∧ c.right = none then some H
      else
        match childHeavy h c.left with
        | none => none
        | some lh =>
          if lh then
            match c.left with
            | some l => avl_height_loop fuel h l (H + 2)
            | none => none
          else
            match childHeavy h c.right with
            | none => none
            | some rh =>
              if rh then
                match c.right with
                | some r => avl_height_loop fuel h r (H + 2)
                | none => none
              else
                match c.left with
                | some l => avl_height_loop fuel h l (H + 1)
                | none =>
                  match c.right with
                  | some r => avl_height_loop fuel h r (H + 1)
                  | none => some H

/-- Embedding of `height` (src/avl.cpp lines 108-131): -1 for the null root,
otherwise the walk above followed by the DEBUG assertion
`assert(root->height_ == H)` (an assertion failure yields `none`). -/
def avl_height (fuel : Nat) (h : AHeap) (root : Option Nat) : Option Int :=
  match root with
  | none => some (-1)
  | some r => do
    let res ← avl_height_loop fuel h r 0
    let rootRec ← aget h r
    if rootRec.height = res then pure res else none

/-- Embedding of `verify_inner` (src/avl.cpp lines 146-175) with assertion
semantics: the result is `true` exactly when the routine returns without any
assertion failing (and without dereferencing a null or invalid pointer, and
within the recursion fuel).  The null-root branch of the source checks its
two assertions but does not return, so control falls through to
`assert(expected_height >= 0)` and then to the dereference of
`root->height_`. -/
def verify_inner (fuel : Nat) (h : AHeap) (root : Option Nat)
    (expected_parent : Option Nat) (expected_height : Int) : Bool :=
  match fuel with
  | 0 => false
  | fuel + 1 =>
    if root = none ∧ ¬(expected_parent = none ∧ expected_height = -1) then
      false
    else if ¬(expected_height ≥ 0) then false
    else
      match root with
      | none => false
      | some r =>
        match aget h r with
        | none => false
        | some n =>
          if ¬(n.height = expected_height) then false
          else if ¬(n.parent = expected_parent) then false
          else if n.left = none ∧ n.right = none then
            decide (expected_height = 0)
          else
            (match n.left, n.right with
             | some l, some rr =>
               match aget h l, aget h rr with
               | some ln, some rn => !ln.heavy || !rn.heavy
               | _, _ => false
             | _, _ => true) &&
            (match n.left with
             | none => true
             | some l =>
               match aget h l with
               | none => false
               | some ln =>
                 decide (¬(n.K < ln.K)) &&
                 verify_inner fuel h (some l) (some r)
                   (expected_height - (if ln.heavy then 2 else 1))) &&
            (match n.right with
             | none => true
             | some rr =>
               match aget h rr with
               | none => false
               | some rn =>
                 decide (¬(rn.K < n.K)) &&
                 verify_inner fuel h (some rr) (some r)
                   (expected_height - (if rn.heavy then 2 else 1)))

/-- Embedding of `verify` (src/avl.cpp lines 177-180): the root's `heavy_`
flag must be false when the root is non-null, then `verify_inner` runs on
the height computed by `height`. -/
def avl_verify (fuel : Nat) (h : AHeap) (root : Option Nat) : Bool :=
  (match root with
   | none => true
   | some r =>
     match aget h r with
     | none => false
     | some n => !n.heavy) &&
  (match avl_height fuel h root with
   | none => false
   | some ht => verify_inner fuel h root none ht)

/-- C9: calling the invariant checker `verify` on an empty tree
(root = nullptr) always fails an assertion before returning: the null-root
branch of `verify_inner` does not return, so execution reaches
`assert(expected_height >= 0)` with `expected_height = -1`.  The embedding
returns `false` (assertion failure) for every heap and every fuel. -/
theorem verify_empty_fails (fuel : Nat) (h : AHeap) :
    avl_verify fuel h none = false := by
  cases fuel with
  | zero => rfl
  | succ n =>
    simp only [avl_verify, avl_height, verify_inner]
    norm_num

/-! ### Heap embedding of src/tmi_comparator.h

A single integer-keyed index (template parameter `I` fixed; the key is the
value itself and the comparator is `<` on Int).  A node record carries the
per-index left/right/parent links and balance factor.  Pointers are
`Option Nat` heap addresses; `none` models nullptr.  A function result of
`none` (at the outer `Option`) models a null-pointer dereference, a failed
`assert`, or running out of loop fuel. -/

/-- One per-index link record of a tmi node: the element value (serving as
its key), the left/right/parent links and the balance factor. -/
structure TmiNode where
  value : Int
  left : Option Nat
  right : Option Nat
  parent : Option Nat
  bf : Int
deriving Repr, DecidableEq

/-- A heap of tmi nodes, addressed by list position. -/
abbrev THeap := List TmiNode

/-- Read the tmi node at address `i`. -/
def tget (h : THeap) (i : Nat) : Option TmiNode := List.get? h i

/-- Embedding of `tree_is_left_child` (src/tmi_comparator.h lines 106-109):
`node == get_left(get_parent(node))`.  A null parent makes the source
dereference nullptr, modelled by `none`. -/
def tree_is_left_child (h : THeap) (node : Nat) : Option Bool :=
  match tget h node with
  | none => none
  | some n =>
    match n.parent with
    | none => none
    | some p =>
      match tget h p with
      | none => none
      | some pn => some (pn.left == some node)

/-- Embedding of `tree_min` (src/tmi_comparator.h lines 116-123):
`do { node = get_left(node); } while (node); return node;` — the loop steps
to the left child and repeats while the pointer is non-null, so on
termination the returned pointer is always null. -/
def tree_min (fuel : Nat) (h : THeap) (node : Nat) : Option (Option Nat) :=
  match fuel with
  | 0 => none
  | fuel + 1 =>
    match tget h node with
    | none => none
    | some n =>
      match n.left with
      | none => some none
      | some l => tree_min fuel h l

/-- Embedding of `tree_max` (src/tmi_comparator.h lines 134-140), the mirror
of `tree_min`. -/
def tree_max (fuel : Nat) (h : THeap) (node : Nat) : Option (Option Nat) :=
  match fuel with
  | 0 => none
  | fuel + 1 =>
    match tget h node with
    | none => none
    | some n =>
      match n.right with
      | none => some none
      | some r => tree_max fuel h r

/-- The ascending loop of `tree_next`:
`while (node && !tree_is_left_child(node)) node = get_parent(node);`
followed by `return node ? get_parent(node) : nullptr;`. -/
def tree_next_ascend (fuel : Nat) (h : THeap) (node : Option Nat) :
    Option (Option Nat) :=
  match fuel with
  | 0 => none
  | fuel + 1 =>
    match node with
    | none => some none
    | some i =>
      match tget h i with
      | none => none
      | some n =>
        match tree_is_left_child h i with
        | none => none
        | some true => some n.parent
        | some false => tree_next_ascend fuel h n.parent

/-- Embedding of `tree_next` (src/tmi_comparator.h lines 150-160): if the
node has a right child, return `tree_min` of it; otherwise ascend to the
first ancestor reached through a left-child link and return its parent. -/
def tree_next (fuel : Nat) (h : THeap) (node : Nat) : Option (Option Nat) :=
  match tget h node with
  | none => none
  | some n =>
    match n.right with
    | some r => tree_min fuel h r
    | none => tree_next_ascend fuel h (some node)

/-- The ascending loop of `tree_prev`:
`while (node && tree_is_left_child(node)) node = get_parent(node);`
followed by `return node ? get_parent(node) : nullptr;`. -/
def tree_prev_ascend (fuel : Nat) (h : THeap) (node : Option Nat) :
    Option (Option Nat) :=
  match fuel with
  | 0 => none
  | fuel + 1 =>
    match node with
    | none => some none
    | some i =>
      match tget h i with
      | none => none
      | some n =>
        match tree_is_left_child h i with
        | none => none
        | some false => some n.parent
        | some true => tree_prev_ascend fuel h n.parent

/-- Embedding of `tree_prev` (src/tmi_comparator.h lines 174-183), the
mirror of `tree_next`. -/
def tree_prev (fuel : Nat) (h : THeap) (node : Nat) : Option (Option Nat) :=
  match tget h node with
  | none => none
  | some n =>
    match n.left with
    | some l => tree_max fuel h l
    | none => tree_prev_ascend fuel h (some node)

/-- Embedding of `tree_remove` (src/tmi_comparator.h lines 254-273): the
body declares `node_type* new_root = nullptr;` and returns it — the removal
algorithm described in its comment is not implemented. -/
def tree_remove (_h : THeap) (_node : Nat) : Option Nat :=
  none

/-- Embedding of `remove_node` (src/tmi_comparator.h lines 347-350):
`m_root = tree_remove(node);` — the heap itself is untouched and the new
root is whatever `tree_remove` returns. -/
def remove_node (h : THeap) (node : Nat) : THeap × Option Nat :=
  (h, tree_remove h node)

/-- Embedding of the member `find` (src/tmi_comparator.h lines 575-591) at
the integer-key instantiation: descend from the root with the comparator and
return the matching node's address, or `none` (the end-sentinel) when the
descent reaches a null pointer. -/
def tmi_find (fuel : Nat) (h : THeap) (curr : Option Nat) (key : Int) :
    Option (Option Nat) :=
  match fuel with
  | 0 => none
  | fuel + 1 =>
    match curr with
    | none => some none
    | some i =>
      match tget h i with
      | none => none
      | some n =>
        if key < n.value then tmi_find fuel h n.left key
        else if n.value < key then tmi_find fuel h n.right key
        else some (some i)

/-- The loop of `tree_balance_after_insert` (src/tmi_comparator.h lines
275-345): while `node != root && height_increased`, read the parent's
balance factor into a local; when the node is its parent's left child and
that local plus one is zero, clear `height_increased` (the only executable
state change in the body — the "update bf, set node = parent" steps and all
rotation cases are comments), so every other combination repeats the
iteration with unchanged state.  The function returns `node`, not the
root. -/
def tree_balance_after_insert (fuel : Nat) (h : THeap) (root node : Nat) :
    Option Nat :=
  match fuel with
  | 0 => none
  | fuel + 1 =>
    if node == root then some node
    else
      match tget h node with
      | none => none
      | some n =>
        match n.parent with
        | none => none
        | some p =>
          match tget h p with
          | none => none
          | some pn =>
            if pn.left == some node then
              if pn.bf + 1 = 0 then some node
              else tree_balance_after_insert fuel h root node
            else tree_balance_after_insert fuel h root node

/-- Embedding of `erase_if_modified` (src/tmi_comparator.h lines 444-467):
compute the candidate predecessor and successor (guarded by comparisons with
`tree_min`/`tree_max` of the root), decide `needs_resort` by comparing the
node's current key with theirs, and if a resort is needed set the root to
`tree_remove`'s result and clear the node's links and balance factor.
Returns the boolean together with the updated heap and root. -/
def erase_if_modified (fuel : Nat) (h : THeap) (root : Option Nat)
    (node : Nat) : Option (Bool × THeap × Option Nat) :=
  match root with
  | none => none
  | some r => do
    let tmin ← tree_min fuel h r
    let prev_ptr ←
      if some node ≠ tmin then tree_prev fuel h node
      else pure (none : Option Nat)
    let tmax ← tree_max fuel h r
    let next_ptr ←
      if some node ≠ tmax then tree_next fuel h node
      else pure (none : Option Nat)
    let nrec ← tget h node
    let key := nrec.value
    let nextLess ←
      match next_ptr with
      | none => pure false
      | some j => (tget h j).map (fun jn => decide (jn.value < key))
    let prevGreater ←
      match prev_ptr with
      | none => pure false
      | some j => (tget h j).map (fun jn => decide (key < jn.value))
    let needs_resort := nextLess || prevGreater
    if needs_resort then
      let root1 := tree_remove h node
      let h1 := (List.set h node
        { nrec with parent := none, left := none, right := none, bf := 0 })
      pure (true, h1, root1)
    else
      pure (false, h, root)

/-- A 2-node tree: root with key 2 whose right child holds key 3. -/
def succHeap : THeap :=
  [⟨2, none, some 1, none, 1⟩, ⟨3, none, none, some 0, 0⟩]

/-- C3: the claim fails on the code.  The successor of the root of
`succHeap` should be node 1 (key 3, the leftmost — and only — node of the
root's non-empty right subtree), but `tree_next` returns the null pointer,
because `tree_min`'s do-while loop iterates until its pointer is null and
returns that null pointer. -/
theorem tree_next_loses_right_subtree :
    tree_next 8 succHeap 0 = some none ∧
    tree_min 8 succHeap 1 = some none ∧
    (tget succHeap 1).map TmiNode.value = some 3 := by decide

/-- A 3-node left-heavy tree: root key 3, its left child key 2, whose own
left child holds key 1. -/
def leftHeavyHeap : THeap :=
  [⟨3, some 1, none, none, -1⟩,
   ⟨2, some 2, none, some 0, -1⟩,
   ⟨1, none, none, some 1, 0⟩]

/-- C2: the claim fails on the code.  Erasing the root of the 3-node
left-heavy tree through `remove_node` sets the index's root to
`tree_remove`'s result — the stub returns nullptr — so the two remaining
keys 1 and 2 are no longer reachable: `find` on the resulting root returns
the end-sentinel for both. -/
theorem erase_root_loses_remaining_keys :
    remove_node leftHeavyHeap 0 = (leftHeavyHeap, none) ∧
    tmi_find 8 leftHeavyHeap (remove_node leftHeavyHeap 0).2 1 = some none ∧
    tmi_find 8 leftHeavyHeap (remove_node leftHeavyHeap 0).2 2 = some none := by
  decide

/-- A 3-node tree after a modify edit: the root's key has been changed to 1;
its left child holds key 3 and its right child holds key 7.  The root's
in-order predecessor is the left child (key 3) and 1 < 3, so the new key
violates the ordering and the check should report a resort. -/
def modifiedHeap : THeap :=
  [⟨1, some 1, some 2, none, 0⟩,
   ⟨3, none, none, some 0, 0⟩,
   ⟨7, none, none, some 0, 0⟩]

/-- C8: the claim fails on the code.  On `modifiedHeap`, the root's new key
1 is less than its in-order predecessor's key 3, so `erase_if_modified`
should return true and detach the node; instead it returns false and leaves
everything unchanged, because the broken `tree_min`/`tree_max` make
`tree_prev`/`tree_next` report null once a child subtree is entered, so both
ordering checks are vacuous. -/
theorem erase_if_modified_misses_violation :
    erase_if_modified 8 modifiedHeap (some 0) 0 =
      some (false, modifiedHeap, some 0) ∧
    (tget modifiedHeap 1).map TmiNode.value = some 3 ∧
    ((1 : Int) < 3) := by decide

end Tmi
